import Mathlib

/-
Verification of the nostd container library core: the shared red-black-tree
engine behind `nostd::set` (include/nostd/set.h) and `nostd::map`, and the
fixed-chunk pool allocator (src/pool_allocator.cpp, stack_linked_list.h).

The pointer-based tree of the source is embedded as an inductive tree; a
node's parent chain is represented by its path context (the list of ancestors
together with the side on which the node hangs and the ancestor's other
subtree).  The nil sentinel is the `nil` constructor; the root sentinel is the
empty path (its left child is the tree root).
-/

namespace Nostd

/-! ## Pool allocator (src/pool_allocator.cpp, stack_linked_list.h) -/

/-- `sizeof(stack_linked_list::node_t)`: one pointer, the hidden free-list
header in front of every chunk's payload region. -/
def nodeSize : Nat := 8

/-- A chunk is identified by (slab index, chunk index inside the slab).  The
payload pointer handed out by `allocate` is the chunk's address plus
`nodeSize`, so chunk identities and payload pointers are in bijection and the
chunk identity stands for both. -/
abbrev Chunk := Nat × Nat

/-- State of one `pool_allocator` instance: configured chunks per slab, the
lazily fixed chunk size, the intrusive free list (`stack_linked_list`, head =
top), and the number of owned slab buffers (`buffers_.size()`). -/
structure PoolState where
  num_chunks : Nat
  chunk_size : Nat
  free_list : List Chunk
  buffers : Nat
deriving DecidableEq

/-- `pool_allocator::pool_allocator(num_chunks)`: no slabs, no free chunks,
chunk size not fixed yet. -/
def poolInit (numChunks : Nat) : PoolState :=
  ⟨numChunks, 0, [], 0⟩

/-- The slab-filling loop of `allocate`: pushes the `n` chunks of buffer `b`
onto the free list in index order (`stack_linked_list::push` prepends, so the
chunk pushed last, index `n-1`, ends up on top). -/
def pushChunks (b : Nat) (n : Nat) (fl : List Chunk) : List Chunk :=
  (List.range n).foldl (fun l i => (b, i) :: l) fl

/-- `pool_allocator::allocate(size)`: pop the free list; if it was empty, fix
the chunk size on the very first slab, acquire a new slab, push its
`num_chunks` chunks and pop one.  `none` models the null pointer that the
source pops when `num_chunks` is zero (a caller error per the spec). -/
def allocate (size : Nat) (s : PoolState) : PoolState × Option Chunk :=
  match s.free_list with
  | c :: rest => ({ s with free_list := rest }, some c)
  | [] =>
    let cs := if s.buffers = 0 then nodeSize + size else s.chunk_size
    match pushChunks s.buffers s.num_chunks [] with
    | c :: rest =>
      ({ num_chunks := s.num_chunks, chunk_size := cs, free_list := rest,
         buffers := s.buffers + 1 }, some c)
    | [] =>
      ({ num_chunks := s.num_chunks, chunk_size := cs, free_list := [],
         buffers := s.buffers + 1 }, none)

/-- `pool_allocator::free(ptr)`: recover the chunk header from the payload
pointer and push it onto the free list. -/
def poolFree (c : Chunk) (s : PoolState) : PoolState :=
  { s with free_list := c :: s.free_list }

/-- One step of a client interleaving: an allocation (all of the same size in
the claims considered here) or the release of a previously returned chunk. -/
inductive PoolOp where
  | alloc (size : Nat)
  | release (c : Chunk)
deriving DecidableEq

/-- Number of allocations in a trace. -/
def allocCount : List PoolOp → Nat
  | [] => 0
  | PoolOp.alloc _ :: ops => allocCount ops + 1
  | PoolOp.release _ :: ops => allocCount ops

/-- Runs a trace against a pool state while tracking the outstanding chunks
(allocated and not yet freed). -/
def runPool : PoolState → List Chunk → List PoolOp → PoolState × List Chunk
  | s, out, [] => (s, out)
  | s, out, PoolOp.alloc sz :: ops =>
    match allocate sz s with
    | (s2, some c) => runPool s2 (c :: out) ops
    | (s2, none) => runPool s2 out ops
  | s, out, PoolOp.release c :: ops => runPool (poolFree c s) (out.erase c) ops

/-! ## The red-black tree (include/nostd/set.h; nostd::map is the same engine
keyed on `data.first`) -/

/-- `node_t`: color bit, payload and the two child links.  The parent link is
represented by the `Path` context below; the nil sentinel is `nil`. -/
inductive Tree (α : Type) where
  | nil : Tree α
  | node (red : Bool) (left : Tree α) (data : α) (right : Tree α) : Tree α
deriving DecidableEq

/-- Which child of its parent a node is. -/
inductive Dir where
  | L : Dir
  | R : Dir
deriving DecidableEq

/-- One ancestor on the chain from a node to the root sentinel: the side on
which the node hangs, the ancestor's color and payload, and the ancestor's
other subtree.  The empty path is the root sentinel (whose left child is the
tree root). -/
abbrev Path (α : Type) := List (Dir × Bool × α × Tree α)

section Engine

variable {α : Type} {κ : Type} [LinearOrder κ] [DecidableEq κ] (key : α → κ)

/-- Rebuild a parent node from a hole-side subtree `t`, the direction of the
hole, and the stored color/payload/sibling. -/
def mkNode (d : Dir) (c : Bool) (a : α) (t s : Tree α) : Tree α :=
  match d with
  | Dir.L => Tree.node c t a s
  | Dir.R => Tree.node c s a t

/-- Rebuild the whole tree from a subtree and its path context. -/
def plug : Tree α → Path α → Tree α
  | t, [] => t
  | t, (d, c, a, s) :: p => plug (mkNode d c a t s) p

/-- In-order payload list. -/
def inorder : Tree α → List α
  | Tree.nil => []
  | Tree.node _ l d r => inorder l ++ d :: inorder r

/-- Number of live (non-sentinel) nodes reachable from the root. -/
def countNodes : Tree α → Nat
  | Tree.nil => 0
  | Tree.node _ l _ r => countNodes l + countNodes r + 1

/-- `x->red` (the nil sentinel is black). -/
def isRed : Tree α → Bool
  | Tree.node true _ _ _ => true
  | _ => false

/-- The independent black-height checker of the claim: the number of black
nodes on every nil-terminated path below a node, `none` when two paths
disagree. -/
def bh : Tree α → Option Nat
  | Tree.nil => some 0
  | Tree.node c l _ r =>
    match bh l, bh r with
    | some a, some b => if a = b then some (if c then a else a + 1) else none
    | _, _ => none

/-- No red node has a red child. -/
def noRR : Tree α → Bool
  | Tree.nil => true
  | Tree.node c l _ r => !(c && (isRed l || isRed r)) && noRR l && noRR r

/-- The red-black invariants of the claim: black root, no red node with a red
child, equal black count on every nil-terminated path. -/
def isRBT (t : Tree α) : Prop :=
  isRed t = false ∧ noRR t = true ∧ (bh t).isSome = true

instance (t : Tree α) : Decidable (isRBT t) :=
  inferInstanceAs (Decidable (_ ∧ _ ∧ _))

/-- `x->left` (the nil sentinel's links point to itself, i.e. to nil). -/
def leftT : Tree α → Tree α
  | Tree.nil => Tree.nil
  | Tree.node _ l _ _ => l

/-- `x->right`. -/
def rightT : Tree α → Tree α
  | Tree.nil => Tree.nil
  | Tree.node _ _ _ r => r

/-- Pointer comparison against the nil sentinel. -/
def isNil : Tree α → Bool
  | Tree.nil => true
  | Tree.node _ _ _ _ => false

/-- Payload of a node; `none` for the nil sentinel. -/
def rootData : Tree α → Option α
  | Tree.nil => none
  | Tree.node _ _ d _ => some d

/-- `x->red = false` on the root of a subtree (on nil this is the source
painting the already-black nil sentinel black). -/
def setBlack : Tree α → Tree α
  | Tree.nil => Tree.nil
  | Tree.node _ l d r => Tree.node false l d r

/-- `x->red = true` on the root of a subtree. -/
def setRed : Tree α → Tree α
  | Tree.nil => Tree.nil
  | Tree.node _ l d r => Tree.node true l d r

/-- The keys of a tree in in-order sequence (for the set shape the payload is
its own key; for the map shape the key is `data.first`). -/
def keyList (t : Tree α) : List κ :=
  (inorder t).map key

/-- `_search(data)`: iterative descent comparing with `==` then `<` at every
node, stopping at equality or at nil. -/
def search (k : κ) : Tree α → Tree α
  | Tree.nil => Tree.nil
  | Tree.node c l d r =>
    if k = key d then Tree.node c l d r
    else if k < key d then search k l
    else search k r

/-- The descent loop of `_insert_help(z)`: walk to the nil position where `z`
belongs (left on `z->data < x->data`, right otherwise), recording the ancestor
path; the final left/right link choice of the source repeats the comparison
that drove the last step, so the hole side is exactly the recorded direction. -/
def descend (z : α) : Tree α → Path α → Path α
  | Tree.nil, p => p
  | Tree.node c l d r, p =>
    if key z < key d then descend z l ((Dir.L, c, d, r) :: p)
    else descend z r ((Dir.R, c, d, l) :: p)

/-- The fix-up loop of `_insert(x)`.  The focus `x` is the current node, the
path holds its ancestors; the loop runs while the parent is red.  Uncle red:
recolor and move up two levels.  Uncle black: an inner child is first rotated
to the outside at the parent, then the parent is blackened, the grandparent
reddened and rotated; the new parent is black, so the loop exits and the
result is plugged back.  A red parent that is the tree root never occurs (the
root is black whenever `_insert` runs), so that arm and a nil focus only close
the pattern match. -/
def insertFix : Tree α → Path α → Tree α
  | x, [] => x
  | x, (d1, false, pd, ps) :: p => plug x ((d1, false, pd, ps) :: p)
  | x, (d1, true, pd, ps) :: [] => plug x ((d1, true, pd, ps) :: [])
  | x, (d1, true, pd, ps) :: (d2, gc, gd, gs) :: p =>
    match d2 with
    | Dir.L =>
      if isRed gs then
        insertFix (Tree.node true (mkNode d1 false pd x ps) gd (setBlack gs)) p
      else
        match d1 with
        | Dir.L => plug (Tree.node false x pd (Tree.node true ps gd gs)) p
        | Dir.R =>
          match x with
          | Tree.node _ xl xd xr =>
            plug (Tree.node false (Tree.node true ps pd xl) xd
                    (Tree.node true xr gd gs)) p
          | Tree.nil => plug Tree.nil ((d1, true, pd, ps) :: (d2, gc, gd, gs) :: p)
    | Dir.R =>
      if isRed gs then
        insertFix (Tree.node true (setBlack gs) gd (mkNode d1 false pd x ps)) p
      else
        match d1 with
        | Dir.R => plug (Tree.node false (Tree.node true gs gd ps) pd x) p
        | Dir.L =>
          match x with
          | Tree.node _ xl xd xr =>
            plug (Tree.node false (Tree.node true gs gd xl) xd
                    (Tree.node true xr pd ps)) p
          | Tree.nil => plug Tree.nil ((d1, true, pd, ps) :: (d2, gc, gd, gs) :: p)

/-- `_insert(x)` for a node already carrying its payload: BST attach as a red
leaf (`_insert_help`), fix-up, then `root_->left->red = false`. -/
def insertNode (z : α) (t : Tree α) : Tree α :=
  setBlack (insertFix (Tree.node true Tree.nil z Tree.nil) (descend key z t []))

/-- Container state visible to the claims: the tree hanging off the root
sentinel's left link and the element counter. -/
structure SetS (α : Type) where
  tree : Tree α
  size : Nat
deriving DecidableEq

def emptySet : SetS α := ⟨Tree.nil, 0⟩

/-- `set::insert(const T&)` / `map::insert`: `_search` first; on a hit return
the hit node and `false`, otherwise allocate, fill and `_insert`.  The option
is the payload of the node designated by the returned iterator. -/
def setInsert (v : α) (s : SetS α) : SetS α × Option α × Bool :=
  match search key (key v) s.tree with
  | Tree.node _ _ d _ => (s, some d, false)
  | Tree.nil =>
    ({ tree := insertNode key v s.tree, size := s.size + 1 }, some v, true)

/-- `set::find(value)`: the hit node, or nil for the end iterator. -/
def find (v : α) (s : SetS α) : Tree α :=
  search key (key v) s.tree

/-- Zipper walk to the node carrying key `k`.  The erase-by-value loop of the
source locates its victim by in-order scan and `==`; in a search tree that
designates the same unique node this walk reaches. -/
def seek (k : κ) : Tree α → Path α → Option (Tree α × Path α)
  | Tree.nil, _ => none
  | Tree.node c l d r, p =>
    if k = key d then some (Tree.node c l d r, p)
    else if k < key d then seek k l ((Dir.L, c, d, r) :: p)
    else seek k r ((Dir.R, c, d, l) :: p)

/-- Leftmost node of a subtree together with its path (the loop inside
`_tree_successor` and `begin`). -/
def minZip : Tree α → Path α → Tree α × Path α
  | Tree.node c Tree.nil d r, p => (Tree.node c Tree.nil d r, p)
  | Tree.node c l d r, p => minZip l ((Dir.L, c, d, r) :: p)
  | Tree.nil, p => (Tree.nil, p)

/-- Near-child preparation of `_delete_fix_up`, x on the left: the sibling's
right child is black, its left child red; the source blackens that left child,
reddens the sibling and right-rotates at the sibling. -/
def delNearL : Tree α → Tree α
  | Tree.node _ (Tree.node _ a b c) wd wr => Tree.node false a b (Tree.node true c wd wr)
  | t => t

/-- Mirror of `delNearL` for x on the right. -/
def delNearR : Tree α → Tree α
  | Tree.node _ wl wd (Tree.node _ a b c) => Tree.node false (Tree.node true wl wd a) b c
  | t => t

/-- Terminal cases of `_delete_fix_up`, x on the left: after the optional
near-child step the sibling's right child is red; the sibling takes the
parent's color, parent and far child are blackened, and the parent is
left-rotated.  The loop then exits via `x = root`, whose closing
`x->red = false` repaints an already-black node. -/
def delTermL (x : Tree α) (pc : Bool) (pd : α) (w : Tree α) (rest : Path α) : Tree α :=
  match (if isRed (rightT w) then w else delNearL w) with
  | Tree.node _ w2l w2d w2r =>
    plug (Tree.node pc (Tree.node false x pd w2l) w2d (setBlack w2r)) rest
  | Tree.nil => plug Tree.nil rest

/-- Mirror of `delTermL` for x on the right. -/
def delTermR (x : Tree α) (pc : Bool) (pd : α) (w : Tree α) (rest : Path α) : Tree α :=
  match (if isRed (leftT w) then w else delNearR w) with
  | Tree.node _ w2l w2d w2r =>
    plug (Tree.node pc (setBlack w2l) w2d (Tree.node false w2r pd x)) rest
  | Tree.nil => plug Tree.nil rest

/-- `_delete_fix_up(x)`: climb while x is black and not the root.  A red
sibling is first demoted by a rotation at the parent (the parent turns red, so
after the subsequent both-children-black recoloring the very next loop test
exits on the red parent — that step is folded in here); a black sibling with
two black children is reddened and the climb continues; otherwise the terminal
rotation cases run and the loop exits.  The closing `x->red = false` blackens
the final node. -/
def deleteFix : Tree α → Path α → Tree α
  | x, [] => setBlack x
  | x, (d, pc, pd, w) :: rest =>
    if isRed x then plug (setBlack x) ((d, pc, pd, w) :: rest)
    else
      match d with
      | Dir.L =>
        match w with
        | Tree.node true wl wd wr =>
          if !isRed (leftT wl) && !isRed (rightT wl) then
            plug (Tree.node false x pd (setRed wl)) ((Dir.L, false, wd, wr) :: rest)
          else
            delTermL x true pd wl ((Dir.L, false, wd, wr) :: rest)
        | _ =>
          if !isRed (leftT w) && !isRed (rightT w) then
            deleteFix (Tree.node pc x pd (setRed w)) rest
          else
            delTermL x pc pd w rest
      | Dir.R =>
        match w with
        | Tree.node true wl wd wr =>
          if !isRed (leftT wr) && !isRed (rightT wr) then
            plug (Tree.node false (setRed wr) pd x) ((Dir.R, false, wd, wl) :: rest)
          else
            delTermR x true pd wr ((Dir.R, false, wd, wl) :: rest)
        | _ =>
          if !isRed (leftT w) && !isRed (rightT w) then
            deleteFix (Tree.node pc (setRed w) pd x) rest
          else
            delTermR x pc pd w rest

/-- `_delete(z)` with `z` the zipper focus.  One-child case: splice, then fix
up if z was black.  Two-children case: the in-order successor y (leftmost of
the right subtree, left child nil) is spliced out, its single child x takes
its place, the fix-up runs if y was black, and y then takes over z's links and
color while z's storage is freed; as the fix-up never touches payloads this
equals replacing z's payload by y's before fixing up, which is the rendering
here.  The nil arms only close the match. -/
def deleteFocus : Tree α → Path α → Tree α
  | Tree.node zc zl zd zr, p =>
    if isNil zl || isNil zr then
      let x := if isNil zl then zr else zl
      if zc then plug x p else deleteFix x p
    else
      match minZip zr [] with
      | (Tree.node yc _ yd yx, yp) =>
        if yc then plug yx (yp ++ (Dir.R, zc, yd, zl) :: p)
        else deleteFix yx (yp ++ (Dir.R, zc, yd, zl) :: p)
      | (Tree.nil, _) => plug Tree.nil p
  | Tree.nil, p => plug Tree.nil p

/-- `set::erase(const T& value)`: the iterator scan deletes the nodes whose
data equals `value`; a search tree holds at most one such node, located here
by `seek`.  Returns the new state and the number of removed elements. -/
def eraseValue (v : α) (s : SetS α) : SetS α × Nat :=
  match seek key (key v) s.tree [] with
  | some (f, p) => ({ tree := deleteFocus f p, size := s.size - 1 }, 1)
  | none => (s, 0)

/-- `set::clear()`: post-order destruction of all real nodes, root link reset
to nil, size reset. -/
def setClear (s : SetS α) : SetS α :=
  { tree := Tree.nil, size := 0 }

/-- A client call against the container. -/
inductive SetOp (α : Type) where
  | ins (v : α)
  | del (v : α)
  | clr
deriving DecidableEq

/-- Runs a call sequence against a container state. -/
def runOps : SetS α → List (SetOp α) → SetS α
  | s, [] => s
  | s, SetOp.ins v :: ops => runOps (setInsert key v s).1 ops
  | s, SetOp.del v :: ops => runOps (eraseValue key v s).1 ops
  | s, SetOp.clr :: ops => runOps (setClear s) ops

/-- Runs a pure insert sequence from the empty container. -/
def runInserts (vs : List α) : SetS α :=
  vs.foldl (fun s v => (setInsert key v s).1) emptySet

/-! ### Iteration (set::iterator, begin, _next) -/

/-- `begin`'s descent: leftmost node of a subtree as a zipper, `none` when the
subtree is nil (begin returns end on an empty container). -/
def leftmostZ : Tree α → Path α → Option (Tree α × Path α)
  | Tree.nil, _ => none
  | Tree.node c Tree.nil d r, p => some (Tree.node c Tree.nil d r, p)
  | Tree.node c l d r, p => leftmostZ l ((Dir.L, c, d, r) :: p)

/-- The parent climb of `_next`: pop ancestors while the node is a right
child; the first ancestor reached by a left step is the successor, and
reaching the root sentinel (empty path) yields the end position.  (The
`y != nil_` guard of the loop never fires on a node that is in the tree.) -/
def climb : Tree α → Path α → Option (Tree α × Path α)
  | t, (Dir.R, c, d, s) :: p => climb (Tree.node c s d t) p
  | t, (Dir.L, c, d, s) :: p => some (Tree.node c t d s, p)
  | _, [] => none

/-- `iterator::_next` on a real node: minimum of the right subtree when it is
non-nil, otherwise the parent climb. -/
def nextZ : Tree α → Path α → Option (Tree α × Path α)
  | Tree.node c l d Tree.nil, p => climb (Tree.node c l d Tree.nil) p
  | Tree.node c l d r, p => leftmostZ r ((Dir.R, c, d, l) :: p)
  | Tree.nil, _ => none

/-- The visit sequence `begin(); ++; ++; …` with explicit fuel (the loop is
bounded by the node count). -/
def iterFrom : Nat → Option (Tree α × Path α) → List α
  | 0, _ => []
  | _, none => []
  | n + 1, some (Tree.nil, _) => []
  | n + 1, some (Tree.node c l d r, p) =>
    d :: iterFrom n (nextZ (Tree.node c l d r) p)

/-- Full forward traversal of a container: begin() then repeated increment
until end(). -/
def traversal (t : Tree α) : List α :=
  iterFrom (countNodes t) (leftmostZ t [])

/-! ### Iterator error behavior (operator++, operator*, _check_node) -/

/-- `iterator::node_`: the null pointer (`none`, unbound), the nil sentinel
(end position), or a real node. -/
inductive INode (α : Type) where
  | nilS : INode α
  | real (t : Tree α) (p : Path α) : INode α

/-- An iterator value; `node = none` models `node_ == nullptr`. -/
structure Iter (α : Type) where
  node : Option (INode α)

def endIter : Iter α := ⟨some INode.nilS⟩

/-- `operator++`: `_check_node` throws only on a null node pointer.  At the
end position `_next(nil_)` runs: `nil_->right` is never reassigned, so the
right-subtree branch is not taken, and on a container never touched by
`_delete` the sentinel's parent still points to itself, so the climb loop is
skipped, `nil_ != root_`, and `nil_` itself is returned. -/
def incr (it : Iter α) : Except String (Iter α) :=
  match it.node with
  | none => Except.error "invalid iterator operation"
  | some INode.nilS => Except.ok ⟨some INode.nilS⟩
  | some (INode.real t p) =>
    Except.ok ⟨some (match nextZ t p with
      | some (t2, p2) => INode.real t2 p2
      | none => INode.nilS)⟩

/-- `operator*`: `_check_node` throws only on a null node pointer; at the end
position it happily returns `nil_->data` (a default-constructed payload),
reported as `none` here. -/
def deref (it : Iter α) : Except String (Option α) :=
  match it.node with
  | none => Except.error "invalid iterator operation"
  | some INode.nilS => Except.ok none
  | some (INode.real t _) => Except.ok (rootData t)

/-! ### Copy construction (set(const set&), _set_by_copy) -/

/-- A full `set` object: tree, size, and the non-owning allocator reference
(`none` models `allocator_ == nullptr`). -/
structure SetObj (α : Type) where
  tree : Tree α
  size : Nat
  alloc : Option Nat

/-- `_allocate_node`: `allocator_->allocate(sizeof(node_t))`; dereferencing a
null allocator pointer is the error case. -/
def allocateNode (a : Option Nat) : Except String Unit :=
  match a with
  | none => Except.error "null allocator dereference"
  | some _ => Except.ok ()

/-- `_set_by_copy(other)`: clean, then `_make_nil_node` and `_make_root_node`
through the CURRENT `allocator_`, only then `allocator_ = other.allocator_`,
and finally every payload of `other` is copied into a freshly allocated node
and attached with `_insert`. -/
def setByCopy (selfAlloc : Option Nat) (other : SetObj α) :
    Except String (SetObj α) := do
  _ ← allocateNode selfAlloc
  _ ← allocateNode selfAlloc
  let copied := (inorder other.tree).foldl
    (fun s v => { s with tree := insertNode key v s.tree, size := s.size + 1 })
    { tree := Tree.nil, size := 0, alloc := other.alloc }
  Except.ok copied

/-- `set(const set& other)`: the member initializers set
`allocator_(nullptr)`, then `_set_by_copy(other)` runs. -/
def copyCtor (other : SetObj α) : Except String (SetObj α) :=
  setByCopy key none other

/-! ### Specification-side auxiliaries used by the proofs -/

/-- Payloads that come before the hole of a path in in-order sequence. -/
def prefL : Path α → List α
  | [] => []
  | (Dir.L, _, _, _) :: p => prefL p
  | (Dir.R, _, d, s) :: p => prefL p ++ inorder s ++ [d]

/-- Payloads that come after the hole of a path in in-order sequence. -/
def suffL : Path α → List α
  | [] => []
  | (Dir.L, _, d, s) :: p => d :: inorder s ++ suffL p
  | (Dir.R, _, _, _) :: p => suffL p

/-- Plain BST insertion; the new node lands exactly at the nil position that
`descend` reaches, so `insertNode` and `insRaw` agree on the in-order
sequence. -/
def insRaw (z : α) : Tree α → Tree α
  | Tree.nil => Tree.node true Tree.nil z Tree.nil
  | Tree.node c l d r =>
    if key z < key d then Tree.node c (insRaw z l) d r
    else Tree.node c l d (insRaw z r)

/-- Insertion into a (key-)sorted list at the first position whose key
exceeds the new key. -/
def insList (z : α) : List α → List α
  | [] => [z]
  | a :: l => if key z < key a then z :: a :: l else a :: insList z l

/-- The payloads an in-order cursor has yet to visit: the focus payload, its
right subtree, then everything after the hole. -/
def afterI : Option (Tree α × Path α) → List α
  | none => []
  | some (Tree.nil, p) => suffL p
  | some (Tree.node _ _ d r, p) => d :: inorder r ++ suffL p

/-- The first path element is a black node (on the empty path: false — the
node below the root sentinel, i.e. the tree root, is required black wherever
this is used). -/
def headBlack : Path α → Prop
  | [] => False
  | (_, c, _, _) :: _ => c = false

/-- Well-formedness of a path context whose hole sits at black height `h`:
every stored sibling is red-red-free with matching black height, every red
ancestor has a black parent and a black sibling-child, and black ancestors
raise the black height by one. -/
def pathOk : Path α → Nat → Prop
  | [], _ => True
  | (_, c, _, s) :: p, h =>
    bh s = some h ∧ noRR s = true ∧ (c = true → isRed s = false ∧ headBlack p) ∧
    pathOk p (if c then h else h + 1)

end Engine

/-! ### The map shape (nostd::map keyed on `pair.first`) -/

section MapShape

variable {κ V : Type} [LinearOrder κ] [DecidableEq κ] [Inhabited V]

/-- `map::operator[](key)`: `_search(key)`; on a hit return the stored
`data.second`; on a miss allocate a node with `pair(key, T())`, `_insert` it
and return the new node's `data.second`. -/
def mapIndex (k : κ) (s : SetS (κ × V)) : SetS (κ × V) × V :=
  match search Prod.fst k s.tree with
  | Tree.node _ _ d _ => (s, d.2)
  | Tree.nil =>
    ({ tree := insertNode Prod.fst (k, (default : V)) s.tree, size := s.size + 1 },
     (default : V))

end MapShape

/-! ## Proofs -/

/-! ### Pool allocator -/

theorem pushChunks_zero (b : Nat) (fl : List Chunk) : pushChunks b 0 fl = fl := rfl

theorem pushChunks_succ (b n : Nat) (fl : List Chunk) :
    pushChunks b (n + 1) fl = (b, n) :: pushChunks b n fl := by
  simp [pushChunks, List.range_succ]

theorem runPool_out_le : ∀ (ops : List PoolOp) (s : PoolState) (out : List Chunk),
    ((runPool s out ops).2).length ≤ out.length + allocCount ops
  | [], s, out => by simp [runPool, allocCount]
  | PoolOp.alloc sz :: ops, s, out => by
    have h2 := runPool_out_le ops (allocate sz s).1 ((allocate sz s).2.elim out (· :: out))
    simp only [runPool, allocCount]
    rcases h : allocate sz s with ⟨s2, r⟩
    rcases r with _ | c
    · have := runPool_out_le ops s2 out
      exact le_trans this (by omega)
    · have := runPool_out_le ops s2 (c :: out)
      exact le_trans this (by simp; omega)
  | PoolOp.release c :: ops, s, out => by
    simp only [runPool, allocCount]
    have := runPool_out_le ops (poolFree c s) (out.erase c)
    have hlen : (out.erase c).length ≤ out.length := (List.erase_sublist c out).length_le
    exact le_trans this (by omega)

/-- C7: on the first `allocate` the chunk size is fixed to
`header + requested size` and a slab is acquired; afterwards `allocate` pops
the free list when it is non-empty, and otherwise acquires one new slab of
`num_chunks` fresh chunks, links them onto the free list and pops one; a pool
configured with 2 chunks per slab acquires its second slab exactly on the
third same-size allocation. -/
theorem C7_pool_allocator_state_machine :
    (∀ n sz : Nat, 0 < n →
      (allocate sz (poolInit n)).1.chunk_size = nodeSize + sz ∧
      (allocate sz (poolInit n)).1.buffers = 1 ∧
      ((allocate sz (poolInit n)).2).isSome = true) ∧
    (∀ (s : PoolState) (sz : Nat) (c : Chunk) (rest : List Chunk),
      s.free_list = c :: rest →
      allocate sz s = ({ s with free_list := rest }, some c)) ∧
    (∀ (s : PoolState) (sz : Nat), s.free_list = [] → 0 < s.num_chunks →
      (allocate sz s).1.buffers = s.buffers + 1 ∧
      ((allocate sz s).1.free_list).length + 1 = s.num_chunks ∧
      ((allocate sz s).2).isSome = true) ∧
    (∀ sz : Nat,
      ((allocate sz (allocate sz (poolInit 2)).1).1).buffers = 1 ∧
      ((allocate sz (allocate sz (allocate sz (poolInit 2)).1).1).1).buffers = 2) := by
  have hlen : ∀ b n, (pushChunks b n ([] : List Chunk)).length = n := by
    intro b n
    induction n with
    | zero => rfl
    | succ m ih => simp [pushChunks_succ, ih]
  refine ⟨?_, ?_, ?_, ?_⟩
  · intro n sz hn
    obtain ⟨m, rfl⟩ := Nat.exists_eq_add_of_lt hn
    simp [allocate, poolInit, pushChunks_succ]
  · intro s sz c rest h
    simp [allocate, h]
  · intro s sz h hn
    obtain ⟨m, hm⟩ := Nat.exists_eq_add_of_lt hn
    rw [Nat.zero_add] at hm
    simp only [allocate, h, hm, pushChunks_succ]
    simp [hlen, hm]
  · intro sz
    simp [allocate, poolInit, pushChunks_succ, pushChunks_zero]

theorem C7_pool_allocator_state_machine_witness :
    (allocate 4 (poolInit 2)).1.chunk_size = nodeSize + 4 ∧
    (allocate 4 (poolInit 2)).1.buffers = 1 ∧
    ((allocate 4 (poolInit 2)).2).isSome = true :=
  C7_pool_allocator_state_machine.1 2 4 (by decide)

/-- C8: over any interleaving of allocations and frees, the chunks outstanding
never exceed the number of allocations issued (hence never exceed N over N
allocate/free pairs), and an `allocate` issued right after a `free` returns
the just-freed chunk: `free` pushes onto the free-list head and `allocate`
pops from it. -/
theorem C8_pool_outstanding_and_lifo_reuse :
    (∀ (s : PoolState) (ops : List PoolOp) (N : Nat), allocCount ops ≤ N →
      ((runPool s [] ops).2).length ≤ N) ∧
    (∀ (s : PoolState) (c : Chunk) (sz : Nat),
      allocate sz (poolFree c s) = (s, some c)) := by
  constructor
  · intro s ops N hN
    exact le_trans (runPool_out_le ops s []) (by simpa using hN)
  · intro s c sz
    rfl

theorem C8_pool_outstanding_and_lifo_reuse_witness :
    ((runPool (poolInit 2) [] [PoolOp.alloc 4, PoolOp.release (0, 1), PoolOp.alloc 4]).2).length ≤ 2 :=
  C8_pool_outstanding_and_lifo_reuse.1 (poolInit 2) _ 2 (by decide)

/-! ### Basic tree facts -/

section TreeProofs

variable {α : Type} {κ : Type} [LinearOrder κ] [DecidableEq κ] (key : α → κ)

theorem inorder_setBlack (t : Tree α) : inorder (setBlack t) = inorder t := by
  cases t <;> rfl

theorem inorder_setRed (t : Tree α) : inorder (setRed t) = inorder t := by
  cases t <;> rfl

theorem plug_append : ∀ (p q : Path α) (t : Tree α),
    plug t (p ++ q) = plug (plug t p) q
  | [], q, t => rfl
  | (d, c, a, s) :: p, q, t => by
    simp only [List.cons_append, plug]
    exact plug_append p q _

theorem inorder_plug : ∀ (p : Path α) (t : Tree α),
    inorder (plug t p) = prefL p ++ inorder t ++ suffL p
  | [], t => by simp [plug, prefL, suffL]
  | (Dir.L, c, a, s) :: p, t => by
    simp [plug, mkNode, prefL, suffL, inorder_plug p, inorder]
  | (Dir.R, c, a, s) :: p, t => by
    simp [plug, mkNode, prefL, suffL, inorder_plug p, inorder]

/-- The insert fix-up only recolors and rotates: the in-order sequence of the
whole tree is untouched. -/
theorem insertFix_inorder : ∀ (p : Path α) (x : Tree α),
    inorder (insertFix x p) = inorder (plug x p)
  | [], x => rfl
  | (d1, false, pd, ps) :: p, x => rfl
  | (d1, true, pd, ps) :: [], x => rfl
  | (d1, true, pd, ps) :: (d2, gc, gd, gs) :: p, x => by
    cases d2 <;> by_cases hg : isRed gs = true <;> cases d1 <;>
      simp only [insertFix, hg, if_true, if_false, Bool.not_eq_true] <;>
      try cases x
    all_goals
      simp [insertFix_inorder p, inorder_plug, mkNode, inorder, inorder_setBlack,
        prefL, suffL]
  termination_by p => p.length

theorem plug_descend (z : α) : ∀ (t : Tree α) (p : Path α),
    inorder (plug (Tree.node true Tree.nil z Tree.nil) (descend key z t p)) =
      inorder (plug (insRaw key z t) p)
  | Tree.nil, p => by simp [descend, insRaw]
  | Tree.node c l d r, p => by
    by_cases h : key z < key d
    · simp only [descend, insRaw, h, if_true]
      rw [plug_descend z l]
      simp [plug, mkNode]
    · simp only [descend, insRaw, h, if_false]
      rw [plug_descend z r]
      simp [plug, mkNode]

/-- `_insert` produces the same in-order sequence as plain BST insertion. -/
theorem inorder_insertNode (z : α) (t : Tree α) :
    inorder (insertNode key z t) = inorder (insRaw key z t) := by
  have h1 := insertFix_inorder (descend key z t []) (Tree.node true Tree.nil z Tree.nil)
  have h2 := plug_descend key z t []
  simp only [insertNode, inorder_setBlack, h1]
  simpa [plug] using h2

theorem length_inorder_insRaw (z : α) : ∀ t : Tree α,
    (inorder (insRaw key z t)).length = (inorder t).length + 1
  | Tree.nil => rfl
  | Tree.node c l d r => by
    by_cases h : key z < key d <;>
      simp [insRaw, h, inorder, length_inorder_insRaw z l, length_inorder_insRaw z r] <;>
      omega

theorem insList_append_lt (z d : α) (B : List α) (h : key z < key d) :
    ∀ A : List α, insList key z (A ++ d :: B) = insList key z A ++ d :: B
  | [] => by simp [insList, h]
  | a :: A => by
    by_cases ha : key z < key a
    · simp [insList, ha]
    · simp [insList, ha, insList_append_lt z d B h A]

theorem insList_append_ge (z : α) :
    ∀ (A B : List α), (∀ a ∈ A, ¬ key z < key a) →
    insList key z (A ++ B) = A ++ insList key z B
  | [], B, _ => rfl
  | a :: A, B, h => by
    have ha := h a (by simp)
    have ih := insList_append_ge z A B (fun x hx => h x (List.mem_cons_of_mem a hx))
    simp [insList, ha, ih]

theorem length_insList (z : α) : ∀ l : List α, (insList key z l).length = l.length + 1
  | [] => rfl
  | a :: l => by
    by_cases h : key z < key a <;> simp [insList, h, length_insList z l]

theorem mem_insList (z b : α) : ∀ l : List α, b ∈ insList key z l ↔ b = z ∨ b ∈ l
  | [] => by simp [insList]
  | a :: l => by
    by_cases h : key z < key a
    · simp [insList, h]
    · simp only [insList, h, if_false, List.mem_cons, mem_insList z b l]
      tauto

/-- BST insertion at the `descend` position inserts into the in-order list at
the sorted position. -/
theorem inorder_insRaw (z : α) : ∀ t : Tree α,
    List.Sorted (· < ·) (keyList key t) →
    inorder (insRaw key z t) = insList key z (inorder t)
  | Tree.nil, _ => rfl
  | Tree.node c l d r, hs => by
    have hs' : List.Sorted (· < ·)
        ((inorder l).map key ++ key d :: (inorder r).map key) := by
      simpa [keyList, inorder] using hs
    obtain ⟨hl, hdr, hcross⟩ := List.pairwise_append.mp hs'
    obtain ⟨hdr1, hr⟩ := List.pairwise_cons.mp hdr
    by_cases h : key z < key d
    · simp only [insRaw, h, if_true, inorder]
      rw [insList_append_lt key z d (inorder r) h (inorder l), inorder_insRaw z l hl]
    · have hge : ∀ a ∈ inorder l ++ [d], ¬ key z < key a := by
        intro a ha
        rcases List.mem_append.mp ha with ha | ha
        · have h1 : key a < key d := hcross (key a) (List.mem_map_of_mem key ha)
            (key d) (List.mem_cons_self _ _)
          have h2 : key d ≤ key z := le_of_not_lt h
          exact not_lt_of_gt (lt_of_lt_of_le h1 h2)
        · simp at ha
          subst ha
          exact h
      have := insList_append_ge key z (inorder l ++ [d]) (inorder r) hge
      simp only [insRaw, h, if_false, inorder]
      rw [show inorder l ++ d :: inorder r = (inorder l ++ [d]) ++ inorder r by simp, this,
        inorder_insRaw z r hr]
      simp

theorem sorted_insList (z : α) : ∀ l : List α,
    List.Sorted (· < ·) (l.map key) → key z ∉ l.map key →
    List.Sorted (· < ·) ((insList key z l).map key)
  | [], _, _ => by simp [insList]
  | a :: l, hs, hz => by
    rw [List.map_cons, List.sorted_cons] at hs
    obtain ⟨ha, hl⟩ := hs
    simp only [List.map_cons, List.mem_cons, not_or] at hz
    obtain ⟨hza, hzl⟩ := hz
    by_cases h : key z < key a
    · simp only [insList, h, if_true, List.map_cons, List.sorted_cons]
      refine ⟨?_, ?_⟩
      · intro b hb
        rcases List.mem_cons.mp hb with hb | hb
        · subst hb; exact h
        · exact lt_trans h (ha b hb)
      · exact ⟨ha, hl⟩
    · have haz : key a < key z := lt_of_le_of_ne (le_of_not_lt h) (fun e => hza e.symm)
      simp only [insList, h, if_false, List.map_cons, List.sorted_cons]
      refine ⟨?_, sorted_insList z l hl hzl⟩
      intro b hb
      rcases List.mem_map.mp hb with ⟨x, hx, rfl⟩
      rcases (mem_insList key z x l).mp hx with rfl | hx
      · exact haz
      · exact ha (key x) (List.mem_map_of_mem key hx)

/-! ### Search -/

theorem search_node (k : κ) : ∀ (t : Tree α) (c : Bool) (l : Tree α) (d : α) (r : Tree α),
    search key k t = Tree.node c l d r → key d = k ∧ d ∈ inorder t
  | Tree.nil, c, l, d, r, h => by simp [search] at h
  | Tree.node c0 l0 d0 r0, c, l, d, r, h => by
    by_cases he : k = key d0
    · simp only [search, he, if_true] at h
      injection h with h1 h2 h3 h4
      subst h3
      exact ⟨he.symm, by simp [inorder]⟩
    · by_cases hlt : k < key d0
      · simp only [search, he, hlt, if_true, if_false] at h
        obtain ⟨h1, h2⟩ := search_node k l0 c l d r h
        exact ⟨h1, by simp [inorder, h2]⟩
      · simp only [search, he, hlt, if_false] at h
        obtain ⟨h1, h2⟩ := search_node k r0 c l d r h
        exact ⟨h1, by simp [inorder, h2]⟩

theorem search_found (k : κ) : ∀ t : Tree α,
    List.Sorted (· < ·) (keyList key t) → k ∈ keyList key t →
    ∃ c l d r, search key k t = Tree.node c l d r
  | Tree.nil, _, hk => by simp [keyList, inorder] at hk
  | Tree.node c0 l0 d0 r0, hs, hk => by
    have hs' : List.Sorted (· < ·)
        ((inorder l0).map key ++ key d0 :: (inorder r0).map key) := by
      simpa [keyList, inorder] using hs
    obtain ⟨hl, hdr, hcross⟩ := List.pairwise_append.mp hs'
    obtain ⟨hdr1, hr⟩ := List.pairwise_cons.mp hdr
    by_cases he : k = key d0
    · exact ⟨c0, l0, d0, r0, by simp [search, he]⟩
    · have hk' : k ∈ (inorder l0).map key ∨ k = key d0 ∨ k ∈ (inorder r0).map key := by
        simpa [keyList, inorder] using hk
      by_cases hlt : k < key d0
      · have hkl : k ∈ (inorder l0).map key := by
          rcases hk' with h | h | h
          · exact h
          · exact absurd h he
          · exact absurd (hdr1 k h) (not_lt_of_gt hlt)
        obtain ⟨c, l, d, r, h⟩ := search_found k l0 hl hkl
        exact ⟨c, l, d, r, by simp [search, he, hlt, h]⟩
      · have hkr : k ∈ (inorder r0).map key := by
          rcases hk' with h | h | h
          · exact absurd (hcross k h (key d0) (List.mem_cons_self _ _)) hlt
          · exact absurd h he
          · exact h
        obtain ⟨c, l, d, r, h⟩ := search_found k r0 hr hkr
        exact ⟨c, l, d, r, by simp [search, he, hlt, h]⟩

/-- C4: inserting a key that is already present returns the node that
prevented the insertion together with a false flag, and leaves the container
state (tree and size) unchanged.  The sortedness hypothesis is the search-tree
invariant that every reachable container state satisfies. -/
theorem C4_insert_existing_is_noop (v : α) (s : SetS α)
    (hs : List.Sorted (· < ·) (keyList key s.tree))
    (hv : key v ∈ keyList key s.tree) :
    ∃ c l d r, search key (key v) s.tree = Tree.node c l d r ∧ key d = key v ∧
      d ∈ inorder s.tree ∧ setInsert key v s = (s, some d, false) := by
  obtain ⟨c, l, d, r, h⟩ := search_found key (key v) s.tree hs hv
  obtain ⟨hk, hd⟩ := search_node key (key v) s.tree c l d r h
  exact ⟨c, l, d, r, h, hk, hd, by simp [setInsert, h]⟩

theorem C4_insert_existing_is_noop_witness :
    ∃ c l d r, search (id : Nat → Nat) 2
        (runInserts (id : Nat → Nat) [5, 2, 8]).tree = Tree.node c l d r ∧
      (id : Nat → Nat) d = 2 ∧
      d ∈ inorder (runInserts (id : Nat → Nat) [5, 2, 8]).tree ∧
      setInsert (id : Nat → Nat) 2 (runInserts (id : Nat → Nat) [5, 2, 8]) =
        (runInserts (id : Nat → Nat) [5, 2, 8], some 2, false) := by
  have h := C4_insert_existing_is_noop (id : Nat → Nat) 2
    (runInserts (id : Nat → Nat) [5, 2, 8]) (by decide) (by decide)
  obtain ⟨c, l, d, r, h1, h2, h3, h4⟩ := h
  have hd : d = 2 := h2
  exact ⟨c, l, d, r, h1, h2, h3, by rw [h4, hd]⟩

/-! ### Red-black invariants through insertion -/

theorem isRed_node (c : Bool) (l : Tree α) (d : α) (r : Tree α) :
    isRed (Tree.node c l d r) = c := by
  cases c <;> rfl

theorem bh_node {c : Bool} {l r : Tree α} {d : α} {n : Nat}
    (h : bh (Tree.node c l d r) = some n) :
    ∃ m, bh l = some m ∧ bh r = some m ∧ n = (if c then m else m + 1) := by
  cases hl : bh l with
  | none => simp [bh, hl] at h
  | some a =>
    cases hr : bh r with
    | none => simp [bh, hl, hr] at h
    | some b =>
      simp only [bh, hl, hr] at h
      by_cases hab : a = b
      · subst hab
        rw [if_pos rfl] at h
        injection h with h2
        exact ⟨a, rfl, rfl, h2.symm⟩
      · simp [hab] at h

theorem noRR_node {c : Bool} {l r : Tree α} {d : α}
    (h : noRR (Tree.node c l d r) = true) :
    noRR l = true ∧ noRR r = true ∧ (c = true → isRed l = false ∧ isRed r = false) := by
  cases c with
  | false =>
    simp only [noRR, Bool.false_and, Bool.not_false, Bool.true_and, Bool.and_eq_true] at h
    exact ⟨h.1, h.2, by simp⟩
  | true =>
    simp only [noRR, Bool.true_and, Bool.and_eq_true, Bool.not_eq_true',
      Bool.or_eq_false_iff] at h
    obtain ⟨⟨⟨h1, h2⟩, h3⟩, h4⟩ := h
    exact ⟨h3, h4, fun _ => ⟨h1, h2⟩⟩

theorem isRBT_setBlack (x : Tree α) (n : Nat)
    (hb : bh x = some n) (hn : noRR x = true) : isRBT (setBlack x) := by
  cases x with
  | nil => exact ⟨rfl, rfl, rfl⟩
  | node c l d r =>
    obtain ⟨m, hbl, hbr, _⟩ := bh_node hb
    obtain ⟨hnl, hnr, _⟩ := noRR_node hn
    refine ⟨rfl, ?_, ?_⟩
    · simp [setBlack, noRR, hnl, hnr]
    · simp [setBlack, bh, hbl, hbr]

theorem plug_ok : ∀ (p : Path α) (x : Tree α) (h : Nat),
    pathOk p h → bh x = some h → noRR x = true →
    (isRed x = true → headBlack p) →
    ∃ n, bh (plug x p) = some n ∧ noRR (plug x p) = true
  | [], x, h, _, hb, hn, _ => ⟨h, hb, hn⟩
  | (d, c, a, s) :: p, x, h, hp, hb, hn, hred => by
    obtain ⟨hbs, hns, hcs, hp2⟩ := hp
    show ∃ n, bh (plug (mkNode d c a x s) p) = some n ∧ noRR (plug (mkNode d c a x s) p) = true
    cases c with
    | false =>
      have hb2 : bh (mkNode d false a x s) = some (h + 1) := by
        cases d <;> simp [mkNode, bh, hb, hbs]
      have hn2 : noRR (mkNode d false a x s) = true := by
        cases d <;> simp [mkNode, noRR, hn, hns]
      exact plug_ok p (mkNode d false a x s) (h + 1) (by simpa using hp2) hb2 hn2
        (fun hh => absurd hh (by cases d <;> simp [mkNode, isRed_node]))
    | true =>
      obtain ⟨hsred, hhead⟩ := hcs rfl
      have hxb : isRed x = false := by
        cases hx : isRed x
        · rfl
        · exact absurd (hred hx) (by simp [headBlack])
      have hb2 : bh (mkNode d true a x s) = some h := by
        cases d <;> simp [mkNode, bh, hb, hbs]
      have hn2 : noRR (mkNode d true a x s) = true := by
        cases d <;> simp [mkNode, noRR, hn, hns, hxb, hsred]
      exact plug_ok p (mkNode d true a x s) h (by simpa using hp2) hb2 hn2
        (fun _ => hhead)

theorem descend_pathOk (z : α) : ∀ (t : Tree α) (p : Path α) (n : Nat),
    bh t = some n → noRR t = true → pathOk p n →
    (isRed t = true → headBlack p) →
    pathOk (descend key z t p) 0
  | Tree.nil, p, n, hb, _, hp, _ => by
    have h0 : (0 : Nat) = n := by simpa [bh] using hb
    subst h0
    simpa [descend] using hp
  | Tree.node c l d r, p, n, hb, hn, hp, hred => by
    obtain ⟨m, hbl, hbr, hnn⟩ := bh_node hb
    obtain ⟨hnl, hnr, hcc⟩ := noRR_node hn
    have hpm : pathOk p (if c then m else m + 1) := by rw [← hnn]; exact hp
    by_cases hlt : key z < key d
    · simp only [descend, hlt, if_true]
      refine descend_pathOk z l ((Dir.L, c, d, r) :: p) m hbl hnl ⟨hbr, hnr, ?_, hpm⟩ ?_
      · intro hc
        exact ⟨(hcc hc).2, hred (by rw [isRed_node]; exact hc)⟩
      · intro hredl
        simp only [headBlack]
        cases hc : c
        · rfl
        · exact absurd hredl (by simp [(hcc hc).1])
    · simp only [descend, hlt, if_false]
      refine descend_pathOk z r ((Dir.R, c, d, l) :: p) m hbr hnr ⟨hbl, hnl, ?_, hpm⟩ ?_
      · intro hc
        exact ⟨(hcc hc).1, hred (by rw [isRed_node]; exact hc)⟩
      · intro hredr
        simp only [headBlack]
        cases hc : c
        · rfl
        · exact absurd hredr (by simp [(hcc hc).2])

/-- The insert fix-up loop invariant of CLRS, phrased on the zipper: a red
focus with consistent black heights and a well-formed remaining path yields,
after the closing blackening of the root, a tree satisfying all red-black
invariants. -/
theorem insertFix_ok : ∀ (p : Path α) (x : Tree α) (n : Nat),
    bh x = some n → noRR x = true → isRed x = true → pathOk p n →
    isRBT (setBlack (insertFix x p))
  | [], x, n, hb, hn, _, _ => by
    simpa [insertFix] using isRBT_setBlack x n hb hn
  | (d1, false, pd, ps) :: p, x, n, hb, hn, _, hp => by
    obtain ⟨m, hbp, hnp⟩ := plug_ok ((d1, false, pd, ps) :: p) x n hp hb hn
      (fun _ => by simp [headBlack])
    simpa [insertFix] using isRBT_setBlack _ m hbp hnp
  | (d1, true, pd, ps) :: [], x, n, _, _, _, hp =>
    absurd ((hp.2.2.1 rfl).2) (by simp [headBlack])
  | (d1, true, pd, ps) :: (d2, gc, gd, gs) :: p, x, n, hb, hn, hx, hp => by
    obtain ⟨hbps, hnps, hcs, hp2⟩ := hp
    obtain ⟨hpsb, hheadg⟩ := hcs rfl
    have hgc : gc = false := hheadg
    subst hgc
    have hp2' : pathOk ((d2, false, gd, gs) :: p) n := by simpa using hp2
    obtain ⟨hbgs, hngs, _, hp3'⟩ := hp2'
    have hp3 : pathOk p (n + 1) := by simpa using hp3'
    cases d2 with
    | L =>
      by_cases hg : isRed gs = true
      · rcases gs with _ | ⟨cg, gl, gdd, gr⟩
        · simp [isRed] at hg
        have hcg : cg = true := by simpa [isRed_node] using hg
        subst hcg
        obtain ⟨mg, hbgl, hbgr, hmg⟩ := bh_node hbgs
        have hmg2 : n = mg := by simpa using hmg
        subst hmg2
        obtain ⟨hngl, hngr, hgcc⟩ := noRR_node hngs
        have hbf : bh (Tree.node true (mkNode d1 false pd x ps) gd
            (setBlack (Tree.node true gl gdd gr))) = some (n + 1) := by
          cases d1 <;> simp [mkNode, setBlack, bh, hb, hbps, hbgl, hbgr]
        have hnf : noRR (Tree.node true (mkNode d1 false pd x ps) gd
            (setBlack (Tree.node true gl gdd gr))) = true := by
          cases d1 <;> simp [mkNode, setBlack, noRR, hn, hnps, hngl, hngr, isRed_node]
        have hrf : isRed (Tree.node true (mkNode d1 false pd x ps) gd
            (setBlack (Tree.node true gl gdd gr))) = true := rfl
        have := insertFix_ok p _ (n + 1) hbf hnf hrf hp3
        simpa [insertFix, hg] using this
      · have hgb : isRed gs = false := by revert hg; cases isRed gs <;> simp
        cases d1 with
        | L =>
          have hbF : bh (Tree.node false x pd (Tree.node true ps gd gs)) = some (n + 1) := by
            simp [bh, hb, hbps, hbgs]
          have hnF : noRR (Tree.node false x pd (Tree.node true ps gd gs)) = true := by
            simp [noRR, hn, hnps, hngs, hpsb, hgb]
          obtain ⟨m2, hb2, hn2⟩ := plug_ok p _ (n + 1) hp3 hbF hnF
            (fun hh => absurd hh (by simp [isRed_node]))
          have := isRBT_setBlack _ m2 hb2 hn2
          simpa [insertFix, hg] using this
        | R =>
          rcases x with _ | ⟨xc, xl, xd, xr⟩
          · simp [isRed] at hx
          have hxc : xc = true := by simpa [isRed_node] using hx
          subst hxc
          obtain ⟨mx, hbxl, hbxr, hmx⟩ := bh_node hb
          have hmx2 : n = mx := by simpa using hmx
          subst hmx2
          obtain ⟨hnxl, hnxr, hxcc⟩ := noRR_node hn
          obtain ⟨hxlb, hxrb⟩ := hxcc rfl
          have hbF : bh (Tree.node false (Tree.node true ps pd xl) xd
              (Tree.node true xr gd gs)) = some (n + 1) := by
            simp [bh, hbps, hbxl, hbxr, hbgs]
          have hnF : noRR (Tree.node false (Tree.node true ps pd xl) xd
              (Tree.node true xr gd gs)) = true := by
            simp [noRR, hnps, hnxl, hnxr, hngs, hpsb, hgb, hxlb, hxrb]
          obtain ⟨m2, hb2, hn2⟩ := plug_ok p _ (n + 1) hp3 hbF hnF
            (fun hh => absurd hh (by simp [isRed_node]))
          have := isRBT_setBlack _ m2 hb2 hn2
          simpa [insertFix, hg] using this
    | R =>
      by_cases hg : isRed gs = true
      · rcases gs with _ | ⟨cg, gl, gdd, gr⟩
        · simp [isRed] at hg
        have hcg : cg = true := by simpa [isRed_node] using hg
        subst hcg
        obtain ⟨mg, hbgl, hbgr, hmg⟩ := bh_node hbgs
        have hmg2 : n = mg := by simpa using hmg
        subst hmg2
        obtain ⟨hngl, hngr, hgcc⟩ := noRR_node hngs
        have hbf : bh (Tree.node true (setBlack (Tree.node true gl gdd gr)) gd
            (mkNode d1 false pd x ps)) = some (n + 1) := by
          cases d1 <;> simp [mkNode, setBlack, bh, hb, hbps, hbgl, hbgr]
        have hnf : noRR (Tree.node true (setBlack (Tree.node true gl gdd gr)) gd
            (mkNode d1 false pd x ps)) = true := by
          cases d1 <;> simp [mkNode, setBlack, noRR, hn, hnps, hngl, hngr, isRed_node]
        have hrf : isRed (Tree.node true (setBlack (Tree.node true gl gdd gr)) gd
            (mkNode d1 false pd x ps)) = true := rfl
        have := insertFix_ok p _ (n + 1) hbf hnf hrf hp3
        simpa [insertFix, hg] using this
      · have hgb : isRed gs = false := by revert hg; cases isRed gs <;> simp
        cases d1 with
        | R =>
          have hbF : bh (Tree.node false (Tree.node true gs gd ps) pd x) = some (n + 1) := by
            simp [bh, hb, hbps, hbgs]
          have hnF : noRR (Tree.node false (Tree.node true gs gd ps) pd x) = true := by
            simp [noRR, hn, hnps, hngs, hpsb, hgb]
          obtain ⟨m2, hb2, hn2⟩ := plug_ok p _ (n + 1) hp3 hbF hnF
            (fun hh => absurd hh (by simp [isRed_node]))
          have := isRBT_setBlack _ m2 hb2 hn2
          simpa [insertFix, hg] using this
        | L =>
          rcases x with _ | ⟨xc, xl, xd, xr⟩
          · simp [isRed] at hx
          have hxc : xc = true := by simpa [isRed_node] using hx
          subst hxc
          obtain ⟨mx, hbxl, hbxr, hmx⟩ := bh_node hb
          have hmx2 : n = mx := by simpa using hmx
          subst hmx2
          obtain ⟨hnxl, hnxr, hxcc⟩ := noRR_node hn
          obtain ⟨hxlb, hxrb⟩ := hxcc rfl
          have hbF : bh (Tree.node false (Tree.node true gs gd xl) xd
              (Tree.node true xr pd ps)) = some (n + 1) := by
            simp [bh, hbps, hbxl, hbxr, hbgs]
          have hnF : noRR (Tree.node false (Tree.node true gs gd xl) xd
              (Tree.node true xr pd ps)) = true := by
            simp [noRR, hnps, hnxl, hnxr, hngs, hpsb, hgb, hxlb, hxrb]
          obtain ⟨m2, hb2, hn2⟩ := plug_ok p _ (n + 1) hp3 hbF hnF
            (fun hh => absurd hh (by simp [isRed_node]))
          have := isRBT_setBlack _ m2 hb2 hn2
          simpa [insertFix, hg] using this
  termination_by p => p.length

/-- `_insert` preserves the red-black invariants. -/
theorem insertNode_isRBT (z : α) (t : Tree α) (ht : isRBT t) :
    isRBT (insertNode key z t) := by
  obtain ⟨hroot, hn, hb⟩ := ht
  obtain ⟨n, hbn⟩ := Option.isSome_iff_exists.mp hb
  have hdp : pathOk (descend key z t []) 0 :=
    descend_pathOk key z t [] n hbn hn trivial (fun hh => absurd hh (by simp [hroot]))
  have hleaf : bh (Tree.node true Tree.nil z Tree.nil) = some 0 := by simp [bh]
  have hleafn : noRR (Tree.node true Tree.nil z Tree.nil) = true := by
    simp [noRR, isRed]
  exact insertFix_ok (descend key z t []) _ 0 hleaf hleafn rfl hdp

theorem setInsert_isRBT (v : α) (s : SetS α) (h : isRBT s.tree) :
    isRBT ((setInsert key v s).1).tree := by
  unfold setInsert
  cases hs : search key (key v) s.tree with
  | nil => exact insertNode_isRBT key v s.tree h
  | node c l d r => exact h

theorem runInserts_isRBT_aux : ∀ (vs : List α) (s : SetS α), isRBT s.tree →
    isRBT (vs.foldl (fun s v => (setInsert key v s).1) s).tree
  | [], _, h => h
  | v :: vs, s, h => runInserts_isRBT_aux vs _ (setInsert_isRBT key v s h)

/-- C1: every insert sequence applied to an empty ordered container leaves a
tree satisfying the red-black invariants: the root is black, no red node has
a red child, and every nil-terminated path below a node carries the same
number of black nodes. -/
theorem C1_insert_sequences_keep_rb_invariants (vs : List α) :
    isRBT (runInserts key vs).tree :=
  runInserts_isRBT_aux key vs emptySet ⟨rfl, rfl, rfl⟩

/-! ### Sortedness through insertion, and the iterator walk -/

theorem search_nil_not_mem (k : κ) (t : Tree α)
    (hs : List.Sorted (· < ·) (keyList key t))
    (h : search key k t = Tree.nil) : k ∉ keyList key t := by
  intro hmem
  obtain ⟨c, l, d, r, hfound⟩ := search_found key k t hs hmem
  rw [h] at hfound
  exact Tree.noConfusion hfound

theorem setInsert_sorted (v : α) (s : SetS α)
    (h : List.Sorted (· < ·) (keyList key s.tree)) :
    List.Sorted (· < ·) (keyList key ((setInsert key v s).1).tree) := by
  unfold setInsert
  cases hs : search key (key v) s.tree with
  | node c l d r => exact h
  | nil =>
    have hmem : key v ∉ keyList key s.tree := search_nil_not_mem key (key v) s.tree h hs
    show List.Sorted (· < ·) (keyList key (insertNode key v s.tree))
    rw [keyList, inorder_insertNode, inorder_insRaw key v s.tree h]
    exact sorted_insList key v (inorder s.tree) h (by simpa [keyList] using hmem)

theorem setInsert_size (v : α) (s : SetS α)
    (h : s.size = (inorder s.tree).length) :
    ((setInsert key v s).1).size = (inorder ((setInsert key v s).1).tree).length := by
  unfold setInsert
  cases hs : search key (key v) s.tree with
  | node c l d r => exact h
  | nil =>
    show s.size + 1 = (inorder (insertNode key v s.tree)).length
    rw [inorder_insertNode, length_inorder_insRaw, h]

theorem length_inorder : ∀ t : Tree α, (inorder t).length = countNodes t
  | Tree.nil => rfl
  | Tree.node c l d r => by
    simp [inorder, countNodes, length_inorder l, length_inorder r]
    omega

theorem leftmost_after : ∀ (l : Tree α) (c : Bool) (d : α) (r : Tree α) (p : Path α),
    afterI (leftmostZ (Tree.node c l d r) p) = inorder (Tree.node c l d r) ++ suffL p
  | Tree.nil, c, d, r, p => by simp [leftmostZ, afterI, inorder]
  | Tree.node c2 l2 d2 r2, c, d, r, p => by
    simp only [leftmostZ]
    rw [leftmost_after l2 c2 d2 r2 ((Dir.L, c, d, r) :: p)]
    simp [inorder, suffL]

theorem leftmost_node : ∀ (l : Tree α) (c : Bool) (d : α) (r : Tree α) (p : Path α) (t2 : Tree α) (p2 : Path α),
    leftmostZ (Tree.node c l d r) p = some (t2, p2) →
    ∃ c3 l3 d3 r3, t2 = Tree.node c3 l3 d3 r3
  | Tree.nil, c, d, r, p, t2, p2, h => by
    simp only [leftmostZ] at h
    injection h with h2
    injection h2 with h3 h4
    exact ⟨c, Tree.nil, d, r, h3.symm⟩
  | Tree.node c2 l2 d2 r2, c, d, r, p, t2, p2, h => by
    simp only [leftmostZ] at h
    exact leftmost_node l2 c2 d2 r2 _ t2 p2 h

theorem climb_after : ∀ (p : Path α) (t : Tree α), afterI (climb t p) = suffL p
  | [], t => by simp [climb, afterI, suffL]
  | (Dir.L, c, d, s) :: p, t => by simp [climb, afterI, suffL]
  | (Dir.R, c, d, s) :: p, t => by
    simp only [climb, suffL]
    exact climb_after p (Tree.node c s d t)

theorem climb_node : ∀ (p : Path α) (t t2 : Tree α) (p2 : Path α),
    climb t p = some (t2, p2) → ∃ c3 l3 d3 r3, t2 = Tree.node c3 l3 d3 r3
  | [], t, t2, p2, h => by simp [climb] at h
  | (Dir.L, c, d, s) :: p, t, t2, p2, h => by
    simp only [climb] at h
    injection h with h2
    injection h2 with h3 h4
    exact ⟨c, t, d, s, h3.symm⟩
  | (Dir.R, c, d, s) :: p, t, t2, p2, h => by
    simp only [climb] at h
    exact climb_node p (Tree.node c s d t) t2 p2 h

theorem nextZ_after (c : Bool) (l : Tree α) (d : α) (r : Tree α) (p : Path α) :
    afterI (nextZ (Tree.node c l d r) p) = inorder r ++ suffL p := by
  cases r with
  | nil => simpa [nextZ, inorder] using climb_after p (Tree.node c l d Tree.nil)
  | node c2 l2 d2 r2 =>
    show afterI (leftmostZ (Tree.node c2 l2 d2 r2) ((Dir.R, c, d, l) :: p)) = _
    rw [leftmost_after l2 c2 d2 r2 ((Dir.R, c, d, l) :: p)]
    simp [suffL]

theorem nextZ_node (c : Bool) (l : Tree α) (d : α) (r : Tree α) (p : Path α)
    (t2 : Tree α) (p2 : Path α) (h : nextZ (Tree.node c l d r) p = some (t2, p2)) :
    ∃ c3 l3 d3 r3, t2 = Tree.node c3 l3 d3 r3 := by
  cases r with
  | nil => exact climb_node p (Tree.node c l d Tree.nil) t2 p2 h
  | node c2 l2 d2 r2 => exact leftmost_node l2 c2 d2 r2 ((Dir.R, c, d, l) :: p) t2 p2 h

theorem iterFrom_after : ∀ (n : Nat) (z : Option (Tree α × Path α)),
    (∀ p, z ≠ some (Tree.nil, p)) → (afterI z).length ≤ n → iterFrom n z = afterI z
  | n, none, _, _ => by cases n <;> simp [iterFrom, afterI]
  | 0, some (t, p), hnz, hlen => by
    rcases t with _ | ⟨c, l, d, r⟩
    · exact absurd rfl (hnz p)
    · simp [afterI] at hlen
  | n + 1, some (t, p), hnz, hlen => by
    rcases t with _ | ⟨c, l, d, r⟩
    · exact absurd rfl (hnz p)
    simp only [iterFrom]
    have hafter := nextZ_after c l d r p
    have hrec : iterFrom n (nextZ (Tree.node c l d r) p) = afterI (nextZ (Tree.node c l d r) p) := by
      apply iterFrom_after n _ ?_ ?_
      · intro p3 hcontra
        obtain ⟨c3, l3, d3, r3, hn3⟩ := nextZ_node c l d r p Tree.nil p3 hcontra
        exact Tree.noConfusion hn3
      · rw [hafter]
        simp only [afterI, List.length_cons, List.length_append] at hlen
        simp only [List.length_append]
        omega
    rw [hrec, hafter]
    simp [afterI]

/-- The iterator walk (begin, then ++ until end) visits exactly the in-order
payload sequence. -/
theorem traversal_inorder (t : Tree α) : traversal t = inorder t := by
  rcases t with _ | ⟨c, l, d, r⟩
  · rfl
  · unfold traversal
    have h1 := leftmost_after l c d r []
    rw [iterFrom_after _ _ ?_ ?_, h1]
    · simp [suffL]
    · intro p3 hcontra
      obtain ⟨c3, l3, d3, r3, hn3⟩ := leftmost_node l c d r [] Tree.nil p3 hcontra
      exact Tree.noConfusion hn3
    · rw [h1]
      simp [suffL, length_inorder]

theorem runInserts_sorted_aux : ∀ (vs : List α) (s : SetS α),
    List.Sorted (· < ·) (keyList key s.tree) →
    List.Sorted (· < ·) (keyList key (vs.foldl (fun s v => (setInsert key v s).1) s).tree)
  | [], _, h => h
  | v :: vs, s, h => runInserts_sorted_aux vs _ (setInsert_sorted key v s h)

theorem runInserts_sorted (vs : List α) :
    List.Sorted (· < ·) (keyList key (runInserts key vs).tree) :=
  runInserts_sorted_aux key vs emptySet (by simp [keyList, emptySet, inorder])

/-- C2: for every insert sequence applied to an empty ordered container, the
iterator walk begin(), ++, …, end() yields the stored payload keys in strictly
ascending order under the supplied ordering. -/
theorem C2_traversal_strictly_ascending (vs : List α) :
    List.Sorted (· < ·) ((traversal (runInserts key vs).tree).map key) := by
  rw [traversal_inorder]
  exact runInserts_sorted key vs

/-! ### Deletion preserves the in-order sequence except for the victim -/

theorem delTermL_inorder (x : Tree α) (pc : Bool) (pd : α) (w : Tree α) (rest : Path α)
    (h : isRed (leftT w) = true ∨ isRed (rightT w) = true) :
    inorder (delTermL x pc pd w rest) = inorder (plug (Tree.node pc x pd w) rest) := by
  rcases w with _ | ⟨wc, wl, wd, wr⟩
  · simp [leftT, rightT, isRed] at h
  by_cases hr : isRed wr = true
  · simp only [delTermL, rightT, hr, if_true]
    rcases wr with _ | ⟨wrc, wrl, wrd, wrr⟩
    · simp [isRed] at hr
    simp [inorder_plug, inorder, setBlack]
  · have hl : isRed wl = true := by
      rcases h with h | h
      · exact h
      · exact absurd h hr
    rcases wl with _ | ⟨wlc, a, b, c2⟩
    · simp [isRed] at hl
    simp only [delTermL, rightT, hr, if_false, delNearL]
    rcases wr with _ | ⟨wrc, wrl, wrd, wrr⟩ <;>
      simp [inorder_plug, inorder, setBlack]

theorem delTermR_inorder (x : Tree α) (pc : Bool) (pd : α) (w : Tree α) (rest : Path α)
    (h : isRed (leftT w) = true ∨ isRed (rightT w) = true) :
    inorder (delTermR x pc pd w rest) = inorder (plug (Tree.node pc w pd x) rest) := by
  rcases w with _ | ⟨wc, wl, wd, wr⟩
  · simp [leftT, rightT, isRed] at h
  by_cases hl : isRed wl = true
  · simp only [delTermR, leftT, hl, if_true]
    rcases wl with _ | ⟨wlc, wll, wld, wlr⟩
    · simp [isRed] at hl
    simp [inorder_plug, inorder, setBlack]
  · have hr : isRed wr = true := by
      rcases h with h | h
      · exact absurd h hl
      · exact h
    rcases wr with _ | ⟨wrc, a, b, c2⟩
    · simp [isRed] at hr
    simp only [delTermR, leftT, hl, if_false, delNearR]
    rcases wl with _ | ⟨wlc, wll, wld, wlr⟩ <;>
      simp [inorder_plug, inorder, setBlack]

/-- The delete fix-up only recolors and rotates: the in-order sequence of the
whole tree is untouched. -/
theorem deleteFix_inorder : ∀ (p : Path α) (x : Tree α),
    inorder (deleteFix x p) = inorder (plug x p)
  | [], x => by simp [deleteFix, inorder_setBlack, plug]
  | (d, pc, pd, w) :: rest, x => by
    by_cases hx : isRed x = true
    · simp [deleteFix, hx, inorder_plug, inorder_setBlack]
    · cases d with
      | L =>
        rcases w with _ | ⟨wc, wl, wd, wr⟩
        · -- nil sibling (unreachable in a valid tree): both child tests see black
          simp only [deleteFix]
          rw [if_neg hx, if_pos (by simp [leftT, rightT, isRed])]
          rw [deleteFix_inorder rest]
          simp [inorder_plug, inorder, setRed, prefL, suffL]
        · cases wc with
          | true =>
            simp only [deleteFix]
            rw [if_neg hx]
            by_cases hc : (!isRed (leftT wl) && !isRed (rightT wl)) = true
            · rw [if_pos hc]
              simp [inorder_plug, inorder, inorder_setRed, prefL, suffL]
            · rw [if_neg hc]
              have hor : isRed (leftT wl) = true ∨ isRed (rightT wl) = true := by
                revert hc
                cases isRed (leftT wl) <;> cases isRed (rightT wl) <;> simp
              rw [delTermL_inorder x true pd wl ((Dir.L, false, wd, wr) :: rest) hor]
              simp [inorder_plug, inorder, prefL, suffL]
          | false =>
            simp only [deleteFix]
            rw [if_neg hx]
            by_cases hc : (!isRed (leftT (Tree.node false wl wd wr)) &&
                !isRed (rightT (Tree.node false wl wd wr))) = true
            · rw [if_pos hc]
              rw [deleteFix_inorder rest]
              simp [inorder_plug, inorder, setRed, prefL, suffL]
            · rw [if_neg hc]
              have hor : isRed (leftT (Tree.node false wl wd wr)) = true ∨
                  isRed (rightT (Tree.node false wl wd wr)) = true := by
                revert hc
                cases isRed (leftT (Tree.node false wl wd wr)) <;>
                  cases isRed (rightT (Tree.node false wl wd wr)) <;> simp
              rw [delTermL_inorder x pc pd (Tree.node false wl wd wr) rest hor]
              rfl
      | R =>
        rcases w with _ | ⟨wc, wl, wd, wr⟩
        · simp only [deleteFix]
          rw [if_neg hx, if_pos (by simp [leftT, rightT, isRed])]
          rw [deleteFix_inorder rest]
          simp [inorder_plug, inorder, setRed, prefL, suffL]
        · cases wc with
          | true =>
            simp only [deleteFix]
            rw [if_neg hx]
            by_cases hc : (!isRed (leftT wr) && !isRed (rightT wr)) = true
            · rw [if_pos hc]
              simp [inorder_plug, inorder, inorder_setRed, prefL, suffL]
            · rw [if_neg hc]
              have hor : isRed (leftT wr) = true ∨ isRed (rightT wr) = true := by
                revert hc
                cases isRed (leftT wr) <;> cases isRed (rightT wr) <;> simp
              rw [delTermR_inorder x true pd wr ((Dir.R, false, wd, wl) :: rest) hor]
              simp [inorder_plug, inorder, prefL, suffL]
          | false =>
            simp only [deleteFix]
            rw [if_neg hx]
            by_cases hc : (!isRed (leftT (Tree.node false wl wd wr)) &&
                !isRed (rightT (Tree.node false wl wd wr))) = true
            · rw [if_pos hc]
              rw [deleteFix_inorder rest]
              simp [inorder_plug, inorder, setRed, prefL, suffL]
            · rw [if_neg hc]
              have hor : isRed (leftT (Tree.node false wl wd wr)) = true ∨
                  isRed (rightT (Tree.node false wl wd wr)) = true := by
                revert hc
                cases isRed (leftT (Tree.node false wl wd wr)) <;>
                  cases isRed (rightT (Tree.node false wl wd wr)) <;> simp
              rw [delTermR_inorder x pc pd (Tree.node false wl wd wr) rest hor]
              rfl

theorem minZip_spec : ∀ (t : Tree α) (p : Path α), isNil t = false →
    ∃ yc yd yx q, minZip t p = (Tree.node yc Tree.nil yd yx, q) ∧
      plug (Tree.node yc Tree.nil yd yx) q = plug t p ∧ prefL q = prefL p
  | Tree.node c Tree.nil d r, p, _ => ⟨c, d, r, p, rfl, rfl, rfl⟩
  | Tree.node c (Tree.node c2 l2 d2 r2) d r, p, _ => by
    obtain ⟨yc, yd, yx, q, h1, h2, h3⟩ :=
      minZip_spec (Tree.node c2 l2 d2 r2) ((Dir.L, c, d, r) :: p) rfl
    exact ⟨yc, yd, yx, q, h1, h2, h3⟩

theorem seek_sound (k : κ) : ∀ (t : Tree α) (p : Path α) (f : Tree α) (q : Path α),
    seek key k t p = some (f, q) →
    ∃ c l d r, f = Tree.node c l d r ∧ key d = k ∧ plug f q = plug t p
  | Tree.nil, p, f, q, h => by simp [seek] at h
  | Tree.node c0 l0 d0 r0, p, f, q, h => by
    by_cases he : k = key d0
    · simp only [seek, he, if_true] at h
      injection h with h2
      injection h2 with h3 h4
      subst h3
      subst h4
      exact ⟨c0, l0, d0, r0, rfl, he.symm, rfl⟩
    · by_cases hlt : k < key d0
      · simp only [seek, he, hlt, if_true, if_false] at h
        exact seek_sound k l0 ((Dir.L, c0, d0, r0) :: p) f q h
      · simp only [seek, he, hlt, if_false] at h
        exact seek_sound k r0 ((Dir.R, c0, d0, l0) :: p) f q h

theorem seek_found (k : κ) : ∀ (t : Tree α) (p : Path α),
    List.Sorted (· < ·) (keyList key t) → k ∈ keyList key t →
    (seek key k t p).isSome = true
  | Tree.nil, p, _, hk => by simp [keyList, inorder] at hk
  | Tree.node c0 l0 d0 r0, p, hs, hk => by
    have hs2 : List.Sorted (· < ·)
        ((inorder l0).map key ++ key d0 :: (inorder r0).map key) := by
      simpa [keyList, inorder] using hs
    obtain ⟨hl, hdr, hcross⟩ := List.pairwise_append.mp hs2
    obtain ⟨hdr1, hr⟩ := List.pairwise_cons.mp hdr
    by_cases he : k = key d0
    · simp [seek, he]
    · have hk2 : k ∈ (inorder l0).map key ∨ k = key d0 ∨ k ∈ (inorder r0).map key := by
        simpa [keyList, inorder] using hk
      by_cases hlt : k < key d0
      · have hkl : k ∈ (inorder l0).map key := by
          rcases hk2 with h | h | h
          · exact h
          · exact absurd h he
          · exact absurd (hdr1 k h) (not_lt_of_gt hlt)
        simp only [seek, he, hlt, if_true, if_false]
        exact seek_found k l0 ((Dir.L, c0, d0, r0) :: p) hl hkl
      · have hkr : k ∈ (inorder r0).map key := by
          rcases hk2 with h | h | h
          · exact absurd (hcross k h (key d0) (List.mem_cons_self _ _)) hlt
          · exact absurd h he
          · exact h
        simp only [seek, he, hlt, if_false]
        exact seek_found k r0 ((Dir.R, c0, d0, l0) :: p) hr hkr

theorem deleteFocus_inorder (zc : Bool) (zl : Tree α) (zd : α) (zr : Tree α) (p : Path α) :
    inorder (deleteFocus (Tree.node zc zl zd zr) p) =
      prefL p ++ inorder zl ++ inorder zr ++ suffL p := by
  rcases zl with _ | ⟨cl, ll, dl, rl⟩
  · -- left child nil: splice in the right child
    simp only [deleteFocus, isNil, Bool.true_or, if_true]
    cases zc <;> simp [deleteFix_inorder, inorder_plug, inorder]
  · rcases zr with _ | ⟨cr, lr, dr, rr⟩
    · -- right child nil: splice in the left child
      simp only [deleteFocus, isNil, Bool.or_true, Bool.false_or, if_true, if_false]
      cases zc <;> simp [deleteFix_inorder, inorder_plug, inorder]
    · -- two children: splice out the in-order successor
      obtain ⟨yc, yd, yx, q, hmz, hplug, hpref⟩ :=
        minZip_spec (Tree.node cr lr dr rr) [] rfl
      have hq0 : prefL q = [] := hpref
      have hzr : inorder (Tree.node cr lr dr rr) = yd :: inorder yx ++ suffL q := by
        have h := congrArg inorder hplug
        rw [inorder_plug] at h
        simp only [plug] at h
        rw [hq0] at h
        simpa [inorder] using h.symm
      have hmain : ∀ u : Tree α, inorder u = inorder yx →
          inorder (plug u (q ++ (Dir.R, zc, yd, Tree.node cl ll dl rl) :: p)) =
            prefL p ++ inorder (Tree.node cl ll dl rl) ++
              inorder (Tree.node cr lr dr rr) ++ suffL p := by
        intro u hu
        rw [plug_append]
        have h2 : inorder (plug u q) = inorder yx ++ suffL q := by
          rw [inorder_plug, hq0, hu]
          simp
        show inorder (plug (Tree.node zc (Tree.node cl ll dl rl) yd (plug u q)) p) = _
        rw [inorder_plug, hzr]
        simp [inorder, h2]
      simp only [deleteFocus, isNil, Bool.or_self, if_false]
      rw [hmz]
      cases yc with
      | true =>
        simp only [if_true]
        exact hmain yx rfl
      | false =>
        simp only [Bool.false_eq_true, if_false]
        rw [deleteFix_inorder]
        exact hmain yx rfl

/-! ### erase(value) and the size invariant -/

theorem eraseValue_removed (v : α) (s : SetS α) (f : Tree α) (q : Path α)
    (h : seek key (key v) s.tree [] = some (f, q)) :
    ∃ pre d post, inorder s.tree = pre ++ d :: post ∧ key d = key v ∧
      inorder ((eraseValue key v s).1).tree = pre ++ post ∧
      ((eraseValue key v s).1).size = s.size - 1 ∧ (eraseValue key v s).2 = 1 := by
  obtain ⟨c, l, d, r, hf, hk, hpl⟩ := seek_sound key (key v) s.tree [] f q h
  subst hf
  have ht : plug (Tree.node c l d r) q = s.tree := by simpa [plug] using hpl
  refine ⟨prefL q ++ inorder l, d, inorder r ++ suffL q, ?_, hk, ?_, ?_, ?_⟩
  · rw [← ht, inorder_plug]
    simp [inorder]
  · simp only [eraseValue, h]
    rw [deleteFocus_inorder]
    simp
  · simp [eraseValue, h]
  · simp [eraseValue, h]

theorem eraseValue_none (v : α) (s : SetS α)
    (h : seek key (key v) s.tree [] = none) : eraseValue key v s = (s, 0) := by
  simp [eraseValue, h]

theorem eraseValue_sorted_size (v : α) (s : SetS α)
    (hs : List.Sorted (· < ·) (keyList key s.tree))
    (hz : s.size = (inorder s.tree).length) :
    List.Sorted (· < ·) (keyList key ((eraseValue key v s).1).tree) ∧
      ((eraseValue key v s).1).size = (inorder ((eraseValue key v s).1).tree).length := by
  cases h : seek key (key v) s.tree [] with
  | none => rw [eraseValue_none key v s h]; exact ⟨hs, hz⟩
  | some fq =>
    obtain ⟨f, q⟩ := fq
    obtain ⟨pre, d, post, h1, h2, h3, h4, _⟩ := eraseValue_removed key v s f q h
    have hsub : List.Sublist (pre ++ post) (pre ++ d :: post) :=
      List.Sublist.append_left (List.sublist_cons_self d post) pre
    constructor
    · rw [keyList, h3]
      have hs2 : List.Sorted (· < ·) ((pre ++ d :: post).map key) := by
        rw [← h1]
        exact hs
      exact List.Pairwise.sublist (hsub.map key) hs2
    · rw [h4, h3, hz, h1]
      simp [List.length_append]

theorem runOps_inv : ∀ (ops : List (SetOp α)) (s : SetS α),
    List.Sorted (· < ·) (keyList key s.tree) → s.size = (inorder s.tree).length →
    List.Sorted (· < ·) (keyList key (runOps key s ops).tree) ∧
      (runOps key s ops).size = (inorder (runOps key s ops).tree).length
  | [], s, h1, h2 => ⟨h1, h2⟩
  | SetOp.ins v :: ops, s, h1, h2 =>
    runOps_inv ops _ (setInsert_sorted key v s h1) (setInsert_size key v s h2)
  | SetOp.del v :: ops, s, h1, h2 =>
    runOps_inv ops _ (eraseValue_sorted_size key v s h1 h2).1
      (eraseValue_sorted_size key v s h1 h2).2
  | SetOp.clr :: ops, s, h1, h2 =>
    runOps_inv ops (setClear s) (by simp [setClear, keyList, inorder])
      (by simp [setClear, inorder])

/-- C5: after every interleaving of insert, erase and clear starting from the
empty container, `size()` equals the number of live (non-sentinel) nodes
reachable from the root. -/
theorem C5_size_equals_live_nodes (ops : List (SetOp α)) :
    (runOps key emptySet ops).size = countNodes (runOps key emptySet ops).tree := by
  have h := runOps_inv key ops emptySet (by simp [emptySet, keyList, inorder]) rfl
  rw [h.2, length_inorder]

/-! ### Membership through insertion, and the find/erase round trip -/

theorem mem_insRaw (z : α) : ∀ t : Tree α, z ∈ inorder (insRaw key z t)
  | Tree.nil => by simp [insRaw, inorder]
  | Tree.node c l d r => by
    by_cases h : key z < key d <;>
      simp [insRaw, h, inorder, mem_insRaw z l, mem_insRaw z r]

theorem mem_insRaw_of_mem (z w : α) : ∀ t : Tree α,
    w ∈ inorder t → w ∈ inorder (insRaw key z t)
  | Tree.node c l d r, hw => by
    simp only [inorder, List.mem_append, List.mem_cons] at hw
    by_cases h : key z < key d <;>
      simp only [insRaw, h, if_true, if_false, inorder, List.mem_append, List.mem_cons]
    · rcases hw with hw | hw | hw
      · exact Or.inl (mem_insRaw_of_mem z w l hw)
      · exact Or.inr (Or.inl hw)
      · exact Or.inr (Or.inr hw)
    · rcases hw with hw | hw | hw
      · exact Or.inl hw
      · exact Or.inr (Or.inl hw)
      · exact Or.inr (Or.inr (mem_insRaw_of_mem z w r hw))

theorem setInsert_mem_self (v : α) (s : SetS α) :
    key v ∈ keyList key ((setInsert key v s).1).tree := by
  unfold setInsert
  cases hs : search key (key v) s.tree with
  | node c l d r =>
    obtain ⟨hk, hd⟩ := search_node key (key v) s.tree c l d r hs
    show key v ∈ keyList key s.tree
    rw [keyList, ← hk]
    exact List.mem_map_of_mem key hd
  | nil =>
    show key v ∈ keyList key (insertNode key v s.tree)
    rw [keyList, inorder_insertNode]
    exact List.mem_map_of_mem key (mem_insRaw key v s.tree)

theorem setInsert_mem_mono (v : α) (w : κ) (s : SetS α)
    (h : w ∈ keyList key s.tree) : w ∈ keyList key ((setInsert key v s).1).tree := by
  unfold setInsert
  cases hs : search key (key v) s.tree with
  | node c l d r => exact h
  | nil =>
    show w ∈ keyList key (insertNode key v s.tree)
    rw [keyList, inorder_insertNode]
    obtain ⟨a, ha, hak⟩ := List.mem_map.mp h
    exact List.mem_map.mpr ⟨a, mem_insRaw_of_mem key v a s.tree ha, hak⟩

theorem runInserts_mem_mono : ∀ (vs : List α) (s : SetS α) (w : κ),
    w ∈ keyList key s.tree →
    w ∈ keyList key (vs.foldl (fun s v => (setInsert key v s).1) s).tree
  | [], _, _, h => h
  | v :: vs, s, w, h => runInserts_mem_mono vs _ w (setInsert_mem_mono key v w s h)

theorem runInserts_mem_aux : ∀ (vs : List α) (s : SetS α) (v : α), v ∈ vs →
    key v ∈ keyList key (vs.foldl (fun s v => (setInsert key v s).1) s).tree
  | [], _, v, hv => absurd hv (List.not_mem_nil v)
  | a :: vs, s, v, hv => by
    rcases List.mem_cons.mp hv with rfl | hv
    · exact runInserts_mem_mono key vs _ _ (setInsert_mem_self key v s)
    · exact runInserts_mem_aux vs _ v hv

theorem runInserts_mem (vs : List α) (v : α) (hv : v ∈ vs) :
    key v ∈ keyList key (runInserts key vs).tree :=
  runInserts_mem_aux key vs emptySet v hv

end TreeProofs

/-- C3: for every key inserted into the container, `find(key)` returns an
iterator whose dereference equals the inserted payload, and after the
erase-by-value operation on that key, `find(key)` returns the end iterator
(the nil sentinel). -/
theorem C3_find_erase_roundtrip {κ : Type} [LinearOrder κ] [DecidableEq κ]
    (vs : List κ) (v : κ) (hv : v ∈ vs) :
    rootData (find (id : κ → κ) v (runInserts id vs)) = some v ∧
      find (id : κ → κ) v ((eraseValue id v (runInserts id vs)).1) = Tree.nil := by
  set s := runInserts (id : κ → κ) vs with hsdef
  have hsorted : List.Sorted (· < ·) (keyList id s.tree) := runInserts_sorted id vs
  have hmem : v ∈ keyList id s.tree := runInserts_mem id vs v hv
  constructor
  · obtain ⟨c, l, d, r, hfind⟩ := search_found id v s.tree hsorted hmem
    obtain ⟨hk, _⟩ := search_node id v s.tree c l d r hfind
    show rootData (search id v s.tree) = some v
    rw [hfind]
    show some d = some v
    rw [show d = v from hk]
  · have hsk : (seek id v s.tree []).isSome = true :=
      seek_found id v s.tree [] hsorted hmem
    obtain ⟨fq, hfq⟩ := Option.isSome_iff_exists.mp hsk
    obtain ⟨f, q⟩ := fq
    obtain ⟨pre, d, post, h1, h2, h3, _, _⟩ := eraseValue_removed id v s f q hfq
    have hd : d = v := h2
    subst hd
    -- strict sortedness makes keys unique, so the key is gone from the result
    have hnodup : (pre ++ d :: post).Nodup := by
      have : List.Sorted (· < ·) (pre ++ d :: post) := by
        have := hsorted
        rw [keyList, List.map_id, h1] at this
        exact this
      exact List.Pairwise.imp (fun h => ne_of_lt h) this
    obtain ⟨hp1, hp2, hp3⟩ := List.pairwise_append.mp hnodup
    have hdpre : d ∉ pre := fun hcon => (hp3 d hcon d (List.mem_cons_self _ _)) rfl
    have hdpost : d ∉ post := fun hcon => (List.pairwise_cons.mp hp2).1 d hcon rfl
    have habsent : d ∉ keyList id ((eraseValue id d s).1).tree := by
      rw [keyList, List.map_id, h3]
      simp only [List.mem_append]
      rintro (hcon | hcon)
      · exact hdpre hcon
      · exact hdpost hcon
    show search id d ((eraseValue id d s).1).tree = Tree.nil
    cases hsr : search id d ((eraseValue id d s).1).tree with
    | nil => rfl
    | node c2 l2 d2 r2 =>
      obtain ⟨hk2, hd2⟩ := search_node id d _ c2 l2 d2 r2 hsr
      exact absurd (by rw [keyList, List.map_id]; rw [← hk2] at hd2 ⊢; exact hd2) habsent

theorem C3_find_erase_roundtrip_witness :
    rootData (find (id : Nat → Nat) 8 (runInserts id [5, 2, 8, 1, 9, 3])) = some 8 ∧
      find (id : Nat → Nat) 8 ((eraseValue id 8 (runInserts id [5, 2, 8, 1, 9, 3])).1) =
        Tree.nil :=
  C3_find_erase_roundtrip [5, 2, 8, 1, 9, 3] 8 (by decide)

/-! ### Iterator error behavior (C6) -/

/-- C6 as stated is false: `operator++` checks only for a null node pointer
(`_check_node`), so advancing an iterator positioned at the end (the nil
sentinel) does NOT raise an invalid-operation error — on a freshly built
container it simply returns the end iterator again. -/
theorem C6_counterexample_advancing_end_succeeds :
    incr (endIter : Iter Nat) = Except.ok (endIter : Iter Nat) ∧
      incr (endIter : Iter Nat) ≠ Except.error "invalid iterator operation" :=
  ⟨rfl, fun h => Except.noConfusion h⟩

/-- C6 (amended): dereferencing or advancing an iterator whose node pointer is
null/unbound raises the invalid-operation error; advancing an iterator at the
end position is not checked and does not raise an error — on a container
untouched by erase it returns the end iterator. -/
theorem C6_iterator_error_behavior :
    (∀ (it : Iter Nat), it.node = none →
      incr it = Except.error "invalid iterator operation" ∧
      deref it = Except.error "invalid iterator operation") ∧
    incr (endIter : Iter Nat) = Except.ok (endIter : Iter Nat) := by
  constructor
  · intro it h
    rcases it with ⟨n⟩
    cases h
    exact ⟨rfl, rfl⟩
  · rfl

theorem C6_iterator_error_behavior_witness :
    incr (⟨none⟩ : Iter Nat) = Except.error "invalid iterator operation" ∧
      deref (⟨none⟩ : Iter Nat) = Except.error "invalid iterator operation" :=
  C6_iterator_error_behavior.1 ⟨none⟩ rfl

/-! ### Copy construction (C9) -/

/-- C9: the copy constructor initializes `allocator_` to nullptr and
`_set_by_copy` allocates the nil and root sentinel nodes through `allocator_`
BEFORE copying `other.allocator_`, so copy construction dereferences a null
allocator pointer for every source container — the deep copy through the
shared allocator that the specification describes never happens. -/
theorem C9_copy_ctor_derefs_null_allocator (other : SetObj Nat) :
    copyCtor (id : Nat → Nat) other = Except.error "null allocator dereference" := rfl

/-! ### map::operator[] (C10) -/

theorem keys_unique {α κ : Type} [LinearOrder κ] (key : α → κ) :
    ∀ (l : List α), List.Sorted (· < ·) (l.map key) →
    ∀ a b, a ∈ l → b ∈ l → key a = key b → a = b
  | [], _, a, _, ha, _, _ => absurd ha (List.not_mem_nil a)
  | x :: l, hs, a, b, ha, hb, hk => by
    obtain ⟨hx, hl⟩ := List.pairwise_cons.mp hs
    rcases List.mem_cons.mp ha with rfl | ha2 <;> rcases List.mem_cons.mp hb with rfl | hb2
    · rfl
    · exact absurd hk (ne_of_lt (hx (key b) (List.mem_map_of_mem key hb2)))
    · exact absurd hk.symm (ne_of_lt (hx (key a) (List.mem_map_of_mem key ha2)))
    · exact keys_unique key l hl a b ha2 hb2 hk

/-- C10: `map::operator[](key)` — if the key is present it returns the stored
mapped value and leaves the map unchanged; if absent it inserts the key paired
with a default-constructed value, grows the size by exactly one, and returns
that new value.  The sortedness hypothesis is the search-tree invariant of
every reachable map state. -/
theorem C10_map_subscript {κ V : Type} [LinearOrder κ] [DecidableEq κ] [Inhabited V]
    (k : κ) (s : SetS (κ × V))
    (hs : List.Sorted (· < ·) (keyList Prod.fst s.tree)) :
    (∀ w : V, (k, w) ∈ inorder s.tree → mapIndex k s = (s, w)) ∧
    (k ∉ keyList Prod.fst s.tree →
      (mapIndex k s).1.size = s.size + 1 ∧ (mapIndex k s).2 = (default : V) ∧
      (k, (default : V)) ∈ inorder (mapIndex k s).1.tree) := by
  constructor
  · intro w hw
    have hmem : k ∈ keyList Prod.fst s.tree := by
      rw [keyList]
      exact List.mem_map.mpr ⟨(k, w), hw, rfl⟩
    obtain ⟨c, l, d, r, hfind⟩ := search_found Prod.fst k s.tree hs hmem
    obtain ⟨hk, hd⟩ := search_node Prod.fst k s.tree c l d r hfind
    have hdw : d = (k, w) :=
      keys_unique Prod.fst (inorder s.tree) hs d (k, w) hd hw (by rw [hk])
    rw [mapIndex, hfind, hdw]
  · intro habs
    cases hsr : search Prod.fst k s.tree with
    | node c l d r =>
      obtain ⟨hk, hd⟩ := search_node Prod.fst k s.tree c l d r hsr
      exact absurd (by rw [keyList, ← hk]; exact List.mem_map_of_mem Prod.fst hd) habs
    | nil =>
      refine ⟨?_, ?_, ?_⟩
      · rw [mapIndex, hsr]
      · rw [mapIndex, hsr]
      · rw [mapIndex, hsr]
        show (k, (default : V)) ∈ inorder (insertNode Prod.fst (k, (default : V)) s.tree)
        rw [inorder_insertNode]
        exact mem_insRaw Prod.fst (k, (default : V)) s.tree

theorem C10_map_subscript_witness :
    (mapIndex 3 (emptySet : SetS (Nat × Nat))).1.size =
        (emptySet : SetS (Nat × Nat)).size + 1 ∧
      (mapIndex 3 (emptySet : SetS (Nat × Nat))).2 = (default : Nat) ∧
      (3, (default : Nat)) ∈ inorder (mapIndex 3 (emptySet : SetS (Nat × Nat))).1.tree :=
  (C10_map_subscript 3 emptySet (by simp [keyList, emptySet, inorder])).2
    (by simp [keyList, emptySet, inorder])

end Nostd
